import Mathlib

/-!
Verification of the MusicPlayer repository (src/MainWindow.cpp) against its
natural-language specification.  The C++ logic is shallowly embedded below:
pure string manipulation becomes functions on `List Char` / `String`,
stateful controller methods become explicit state-passing functions, and the
media/GUI toolkit collaborators (Qt) are modelled by their documented
behaviour at the call sites the logic uses.
-/

namespace MusicPlayer

/-! ## Text normalizer

Embedding of `normalizeText` (MainWindow.cpp:35-41):

    QString normalizeText(QString text) {
        text = text.toLower();
        text.replace('_', ' ');
        text.replace('-', ' ');
        text.replace(QRegularExpression("\\s+"), " ");
        return text.simplified();
    }
-/

/-- ASCII whitespace, the class matched by the regex `\s` and treated as
spaces by `QString::simplified` (for the ASCII fragment we model). -/
def isWs (c : Char) : Bool :=
  c == ' ' || c == '\t' || c == '\n' || c == '\r' || c == '\x0b' || c == '\x0c'

/-- Model of `text.replace(QRegularExpression("\\s+"), " ")`: every maximal
run of whitespace characters is replaced by a single `' '`.  Processing is
pairwise: a whitespace character followed by another whitespace character is
dropped, so each run contributes exactly one `' '`. -/
def rrws : List Char → List Char
  | [] => []
  | [c] => if isWs c then [' '] else [c]
  | c :: d :: rest =>
    if isWs c && isWs d then rrws (d :: rest)
    else (if isWs c then ' ' else c) :: rrws (d :: rest)

/-- Maximal chunks of `l` not satisfying `p`, skipping empty chunks.  With
`p = (· == ' ')` this is `QString::split(' ', Qt::SkipEmptyParts)`. -/
def wordsBy (p : Char → Bool) (l : List Char) : List (List Char) :=
  (l.splitOnP p).filter fun w => !w.isEmpty

/-- Join chunks with single spaces. -/
def unwordsL : List (List Char) → List Char
  | [] => []
  | [w] => w
  | w :: ws => w ++ ' ' :: unwordsL ws

/-- Model of `QString::simplified`: leading/trailing whitespace removed and
every internal whitespace run replaced by a single `' '`; equivalently, the
whitespace-separated words joined by single spaces. -/
def simplifiedL (l : List Char) : List Char :=
  unwordsL (wordsBy isWs l)

/-- Model of `QString::replace('_', ' ')` at one character. -/
def sepUnderscore (c : Char) : Char := if c == '_' then ' ' else c

/-- Model of `QString::replace('-', ' ')` at one character. -/
def sepDash (c : Char) : Char := if c == '-' then ' ' else c

/-- `normalizeText` on character lists: lower-case, map `'_'` and `'-'` to
spaces, collapse whitespace runs, then `simplified`. -/
def normalizeL (l : List Char) : List Char :=
  simplifiedL (rrws (((l.map Char.toLower).map sepUnderscore).map sepDash))

/-- `normalizeText` (MainWindow.cpp:35-41). -/
def normalize (s : String) : String :=
  ⟨normalizeL s.data⟩

/-- The character-level composition applied by the three `map`s of
`normalizeL`. -/
def normChar (c : Char) : Char :=
  sepDash (sepUnderscore c.toLower)

/-! ## QFileInfo model

The code reads paths through `QFileInfo` (`fileName`, `completeBaseName`,
`absolutePath`).  These are modelled on plain path strings: `fileName` is the
part after the last `'/'`, `completeBaseName` is the file name up to (not
including) its last `'.'` (the whole name when it has no dot), and
`absolutePath` is the part before the last `'/'`. -/

/-- Characters after the last occurrence of `sep`, or `none` when `sep` does
not occur. -/
def afterLastC (sep : Char) : List Char → Option (List Char)
  | [] => none
  | c :: rest =>
    match afterLastC sep rest with
    | some e => some e
    | none => if c == sep then some rest else none

/-- Characters before the last occurrence of `sep`, or `none` when `sep`
does not occur. -/
def beforeLastC (sep : Char) : List Char → Option (List Char)
  | [] => none
  | c :: rest =>
    match beforeLastC sep rest with
    | some pre => some (c :: pre)
    | none => if c == sep then some [] else none

/-- `QFileInfo::fileName` on the underlying characters. -/
def fileNameL (p : List Char) : List Char :=
  (afterLastC '/' p).getD p

/-- `QFileInfo::fileName`. -/
def fileName (p : String) : String :=
  ⟨fileNameL p.data⟩

/-- `QFileInfo::completeBaseName`. -/
def completeBaseName (p : String) : String :=
  ⟨(beforeLastC '.' (fileNameL p.data)).getD (fileNameL p.data)⟩

/-- `QFileInfo::absolutePath`. -/
def absolutePath (p : String) : String :=
  ⟨(beforeLastC '/' p.data).getD []⟩

/-! ## Track catalog

Embedding of `MainWindow::addTrack` (MainWindow.cpp:307-316).  The catalog
state is the `trackSet_` of known paths plus the rows of `model_` in
insertion order.  `addTrack` in the C++ returns `void`; the spec's
`add(filePath) -> bool` return value is the observable "was a row appended",
which the model returns explicitly. -/

structure Track where
  filePath : String
  displayTitle : String
  searchKey : String
deriving DecidableEq

structure Catalog where
  trackSet : List String
  tracks : List Track
deriving DecidableEq

def emptyCatalog : Catalog := ⟨[], []⟩

/-- The row built by `addTrack` for a fresh path: title is
`info.completeBaseName()`, search key is
`normalizeText(completeBaseName + " " + fileName + " " + absolutePath)`. -/
def mkTrack (filePath : String) : Track :=
  { filePath := filePath
    displayTitle := completeBaseName filePath
    searchKey :=
      normalize (completeBaseName filePath ++ " " ++ fileName filePath
        ++ " " ++ absolutePath filePath) }

/-- `MainWindow::addTrack` (MainWindow.cpp:307-316). -/
def addTrack (st : Catalog) (filePath : String) : Catalog × Bool :=
  if filePath ∈ st.trackSet then (st, false)
  else
    ({ trackSet := filePath :: st.trackSet, tracks := st.tracks ++ [mkTrack filePath] },
      true)

/-- `model_->rowCount()`: the number of catalog rows. -/
def catalogCount (st : Catalog) : Nat :=
  st.tracks.length

/-- Catalog states reachable in a session: the empty catalog at startup,
grown only by `addTrack` (every caller — `scanFolder` — goes through it). -/
inductive CatReach : Catalog → Prop
  | init : CatReach emptyCatalog
  | add (st : Catalog) (p : String) : CatReach st → CatReach (addTrack st p).1

/-- Internal consistency of a catalog state: the rows carry pairwise
distinct paths and `trackSet` holds exactly the row paths. -/
def catInv (st : Catalog) : Prop :=
  (st.tracks.map Track.filePath).Nodup ∧
    ∀ q : String, q ∈ st.trackSet ↔ q ∈ st.tracks.map Track.filePath

/-! ## Folder scanner

Embedding of `MainWindow::scanFolder` (MainWindow.cpp:300-305).  The
filesystem is externalized as the recursive listing of regular files under
the chosen root (what `QDirIterator(path, kFilters, QDir::Files,
QDirIterator::Subdirectories)` walks).  The iterator's name filtering is
modelled from Qt's documented behaviour: each pattern `*.suffix` matches a
file name that ends in `.suffix`, and without `QDir::CaseSensitive` the
match is case-insensitive. -/

def kFilters : List String :=
  ["*.mp3", "*.flac", "*.wav", "*.ogg", "*.m4a", "*.aac"]

/-- Whether a file name passes the `QDirIterator` name filters: some pattern
`*.suffix`, lower-cased, is a suffix of the lower-cased name. -/
def nameMatchesFilters (name : List Char) : Bool :=
  kFilters.any fun pat =>
    decide ((pat.data.drop 1).map Char.toLower <:+ name.map Char.toLower)

/-- `MainWindow::scanFolder` applied to the recursive file listing: every
listed file passing the name filters is fed to `addTrack` in order. -/
def scanFolder (listing : List String) (st : Catalog) : Catalog :=
  (listing.filter fun p => nameMatchesFilters (fileNameL p.data)).foldl
    (fun s q => (addTrack s q).1) st

/-- The spec's allow-list of audio file extensions. -/
def allowedExts : List (List Char) :=
  ["mp3", "flac", "wav", "ogg", "m4a", "aac"].map String.data

/-- The spec's reading of the filter: the file name's extension (the part
after its last dot), compared case-insensitively, is in the allow-list. -/
def extIsAllowed (name : List Char) : Bool :=
  match afterLastC '.' (name.map Char.toLower) with
  | some e => decide (e ∈ allowedExts)
  | none => false

/-! ## Playback controller and navigation

State the navigation/playback methods read and write.  `visible` is the
filtered-and-sorted view of the catalog (`filter_`'s rows, each mapped to
its file path), `currentRow` is `listView_->currentIndex().row()` (−1 when
no current index), and `repeatMode` uses the code's encoding 0 = Off,
1 = All, 2 = One (`cycleRepeat`, MainWindow.cpp:410-413).  Where the code
draws `QRandomGenerator::global()->bounded(total)` the model takes the draw
as an explicit parameter.  Each operation returns the new state plus the
path handed to the media engine, if any. -/

structure PlayerSt where
  visible : List String
  currentRow : Int
  currentFilePath : String
  playHistory : List String
  shuffleEnabled : Bool
  repeatMode : Nat
deriving DecidableEq

/-- `MainWindow::playTrack` (MainWindow.cpp:325-341): empty paths are
rejected; otherwise the track is loaded and played, `currentFilePath_` set,
the path appended to `playHistory_` when recording is on and it differs
from the last entry, and the list selection moved to the first visible row
with this path. -/
def playTrackS (st : PlayerSt) (filePath : String) (recordHistory : Bool) :
    PlayerSt × Option String :=
  if filePath = "" then (st, none)
  else
    let hist :=
      if recordHistory ∧ (st.playHistory = [] ∨ st.playHistory.getLast? ≠ some filePath)
      then st.playHistory ++ [filePath] else st.playHistory
    let row : Int :=
      match st.visible.findIdx? (fun q => q == filePath) with
      | some i => (i : Int)
      | none => st.currentRow
    ({ st with currentFilePath := filePath, playHistory := hist, currentRow := row },
      some filePath)

/-- `MainWindow::playIndex` (MainWindow.cpp:320-323): invalid proxy indices
are ignored, valid rows play the row's path (recording history). -/
def playIndexS (st : PlayerSt) (row : Int) : PlayerSt × Option String :=
  if 0 ≤ row ∧ row < (st.visible.length : Int) then
    playTrackS st (st.visible.getD row.toNat "") true
  else (st, none)

/-- The index arithmetic of `MainWindow::playNext` (MainWindow.cpp:350-356):
`none` stands for the code's `-1` sentinel (no track to play). -/
def nextIndex (currentIndex total : Int) (shuffleEnabled : Bool) (repeatMode : Nat)
    (draw : Int) : Option Int :=
  if total = 0 then none
  else
    let r := if shuffleEnabled then draw else currentIndex + 1
    let r' := if total ≤ r then (if repeatMode = 1 then 0 else -1) else r
    if r' ≠ -1 then some r' else none

/-- `MainWindow::playNext` (MainWindow.cpp:350-356). -/
def playNextS (st : PlayerSt) (draw : Int) : PlayerSt × Option String :=
  match nextIndex st.currentRow (st.visible.length : Int) st.shuffleEnabled
      st.repeatMode draw with
  | some r => playIndexS st r
  | none => (st, none)

/-- `MainWindow::playPrevious` (MainWindow.cpp:358-363): with at least two
history entries, drop the most recent and replay the new last entry without
recording; otherwise step to `currentRow - 1`, wrapping to the last row
when repeat mode is All. -/
def playPreviousS (st : PlayerSt) : PlayerSt × Option String :=
  if 2 ≤ st.playHistory.length then
    playTrackS { st with playHistory := st.playHistory.dropLast }
      (st.playHistory.dropLast.getLastD "") false
  else
    let prevRow := st.currentRow - 1
    let prevRow' :=
      if prevRow < 0 then (if st.repeatMode = 1 then (st.visible.length : Int) - 1 else -1)
      else prevRow
    if prevRow' ≠ -1 then playIndexS st prevRow' else (st, none)

/-- `MainWindow::handleMediaStatus` (MainWindow.cpp:402-407) at a media
status event; `endOfMedia` tells whether the status is
`QMediaPlayer::EndOfMedia`. -/
def handleMediaStatusS (st : PlayerSt) (endOfMedia : Bool) (draw : Int) :
    PlayerSt × Option String :=
  if endOfMedia then
    if st.repeatMode = 2 then playTrackS st st.currentFilePath false
    else playNextS st draw
  else (st, none)

/-- The controller state at startup (MainWindow.h:75-81). -/
def initPlayerSt : PlayerSt :=
  { visible := [], currentRow := -1, currentFilePath := "", playHistory := [],
    shuffleEnabled := false, repeatMode := 0 }

/-- One user- or engine-triggered operation.  The operations that touch
`playHistory_` appear explicitly (`playIndex` also covers `playSelected`
and both playing branches of `playPause`, which call it); every other
handler (`stop`, `toggleShuffle`, `cycleRepeat`, search and scan updates to
the visible view, selection changes, slider handlers) leaves the history
untouched and is covered by `passive`. -/
inductive PStep : PlayerSt → PlayerSt → Prop
  | playIndex (st : PlayerSt) (row : Int) : PStep st (playIndexS st row).1
  | playNext (st : PlayerSt) (draw : Int) : PStep st (playNextS st draw).1
  | playPrevious (st : PlayerSt) : PStep st (playPreviousS st).1
  | mediaStatus (st : PlayerSt) (endOfMedia : Bool) (draw : Int) :
      PStep st (handleMediaStatusS st endOfMedia draw).1
  | passive (st st' : PlayerSt) : st'.playHistory = st.playHistory → PStep st st'

/-- Controller states reachable from startup. -/
inductive PReach : PlayerSt → Prop
  | init : PReach initPlayerSt
  | step {st st' : PlayerSt} : PReach st → PStep st st' → PReach st'

/-! ## Play/pause precedence

Embedding of `MainWindow::playPause` (MainWindow.cpp:343-348).  Only the
branch decision is modelled: `playing` is
`player_->playbackState() == QMediaPlayer::PlayingState`, `sourceSet` is
`!player_->source().isEmpty()`, `selectionValid` is
`listView_->currentIndex().isValid()`, `visibleCount` is
`filter_->rowCount()` and `catalogSize` is `model_->rowCount()`. -/

inductive PPAction
  | pauseCurrent
  | resumeCurrent
  | playSelection
  | playFirstVisible
  | noAction
deriving DecidableEq

structure UiSnapshot where
  playing : Bool
  sourceSet : Bool
  selectionValid : Bool
  visibleCount : Nat
  catalogSize : Nat
deriving DecidableEq

/-- The branch `MainWindow::playPause` takes (MainWindow.cpp:343-348). -/
def playPauseAction (u : UiSnapshot) : PPAction :=
  if u.playing then .pauseCurrent
  else if u.sourceSet then .resumeCurrent
  else if u.selectionValid then .playSelection
  else if 0 < u.visibleCount then .playFirstVisible
  else .noAction

/-- Modelled from the spec: the spec's fallback chain for
`togglePlayPause()` words its last guard as "else if catalog non-empty →
play first visible track", i.e. it tests the catalog size where the code
tests the filtered row count.  Kept separate to compare with
`playPauseAction`. -/
def playPauseActionSpec (u : UiSnapshot) : PPAction :=
  if u.playing then .pauseCurrent
  else if u.sourceSet then .resumeCurrent
  else if u.selectionValid then .playSelection
  else if 0 < u.catalogSize then .playFirstVisible
  else .noAction

/-! ## Search filter

Embedding of `TrackFilterProxy` (MainWindow.cpp:43-72).  `setFilterText`
stores `normalizeText(text).split(' ', Qt::SkipEmptyParts)`;
`filterAcceptsRow` reads a row's search key and accepts when the token list
is empty, the key is empty, or every token occurs in the key as a
substring. -/

/-- The token list maintained by `TrackFilterProxy::setFilterText`
(MainWindow.cpp:51-55). -/
def setQueryTokens (text : String) : List String :=
  (wordsBy (fun c => c == ' ') (normalize text).data).map List.asString

/-- `TrackFilterProxy::filterAcceptsRow` (MainWindow.cpp:58-67) as a
function of the stored tokens and the row's search key. -/
def filterAcceptsRow (tokens : List String) (searchKey : String) : Bool :=
  if tokens = [] then true
  else if searchKey = "" then true
  else tokens.all fun t => decide (t.data <:+: searchKey.data)

/-! # Theorems -/

/-! ## Normalizer lemmas -/

theorem char_toNat_ofNat {n : Nat} (h : n.isValidChar) : (Char.ofNat n).toNat = n := by
  simp [Char.ofNat, h, Char.ofNatAux, Char.toNat, UInt32.toNat, BitVec.toNat_ofNatLt]

theorem toLower_toLower (c : Char) : c.toLower.toLower = c.toLower := by
  unfold Char.toLower
  by_cases h : c.toNat ≥ 65 ∧ c.toNat ≤ 90
  · rw [if_pos h]
    have hv : (c.toNat + 32).isValidChar := Or.inl (by omega)
    have hn : (Char.ofNat (c.toNat + 32)).toNat = c.toNat + 32 := char_toNat_ofNat hv
    rw [if_neg (by omega)]
  · rw [if_neg h, if_neg h]

theorem normChar_normChar (c : Char) : normChar (normChar c) = normChar c := by
  unfold normChar sepUnderscore sepDash
  by_cases h1 : c.toLower = '_'
  · simp [h1]
  · simp only [beq_iff_eq, h1, if_false]
    by_cases h2 : c.toLower = '-'
    · simp [h2]
    · simp only [h2, if_false, toLower_toLower, h1, h2]

theorem mem_splitOnP {p : Char → Bool} :
    ∀ (l : List Char), ∀ w ∈ l.splitOnP p, ∀ c ∈ w, p c = false ∧ c ∈ l := by
  intro l
  induction l with
  | nil => simp
  | cons a xs ih =>
    intro w hw c hc
    rw [List.splitOnP_cons] at hw
    by_cases ha : p a
    · rw [if_pos ha] at hw
      rcases List.mem_cons.1 hw with h | h
      · subst h; simp at hc
      · have := ih w h c hc
        exact ⟨this.1, List.mem_cons_of_mem _ this.2⟩
    · rw [if_neg ha] at hw
      obtain ⟨h0, t0, hsplit⟩ : ∃ h0 t0, xs.splitOnP p = h0 :: t0 := by
        cases hx : xs.splitOnP p with
        | nil => exact absurd hx (List.splitOnP_ne_nil p xs)
        | cons h0 t0 => exact ⟨h0, t0, rfl⟩
      rw [hsplit] at hw
      simp only [List.modifyHead] at hw
      rcases List.mem_cons.1 hw with h | h
      · subst h
        rcases List.mem_cons.1 hc with h | h
        · subst h; exact ⟨Bool.of_not_eq_true ha, List.mem_cons_self _ _⟩
        · have := ih h0 (hsplit ▸ List.mem_cons_self _ _) c h
          exact ⟨this.1, List.mem_cons_of_mem _ this.2⟩
      · have := ih w (hsplit ▸ List.mem_cons_of_mem _ h) c hc
        exact ⟨this.1, List.mem_cons_of_mem _ this.2⟩

theorem mem_wordsBy {p : Char → Bool} {l : List Char} :
    ∀ w ∈ wordsBy p l, w ≠ [] ∧ ∀ c ∈ w, p c = false ∧ c ∈ l := by
  intro w hw
  have hmem : w ∈ l.splitOnP p ∧ (!w.isEmpty) = true := List.mem_filter.1 hw
  refine ⟨?_, fun c hc => mem_splitOnP l w hmem.1 c hc⟩
  intro h; subst h; simp at hmem

theorem rrws_chars : ∀ (l : List Char), ∀ c ∈ rrws l, c = ' ' ∨ c ∈ l
  | [] => by simp [rrws]
  | [a] => by by_cases h : isWs a <;> simp [rrws, h]
  | a :: b :: t => by
    intro c hc
    unfold rrws at hc
    by_cases h : isWs a && isWs b
    · rw [if_pos h] at hc
      rcases rrws_chars (b :: t) c hc with h' | h'
      · exact Or.inl h'
      · exact Or.inr (List.mem_cons_of_mem _ h')
    · rw [if_neg h] at hc
      rcases List.mem_cons.1 hc with h' | h'
      · by_cases ha : isWs a
        · simp only [ha, if_true] at h'; exact Or.inl h'
        · simp only [ha, if_false] at h'; exact Or.inr (h' ▸ List.mem_cons_self _ _)
      · rcases rrws_chars (b :: t) c h' with h'' | h''
        · exact Or.inl h''
        · exact Or.inr (List.mem_cons_of_mem _ h'')

theorem unwordsL_chars :
    ∀ (W : List (List Char)), ∀ c ∈ unwordsL W, c = ' ' ∨ ∃ w ∈ W, c ∈ w
  | [] => by simp [unwordsL]
  | [w] => by
    intro c hc
    exact Or.inr ⟨w, List.mem_cons_self _ _, hc⟩
  | w :: w' :: ws => by
    intro c hc
    unfold unwordsL at hc
    rcases List.mem_append.1 hc with h | h
    · exact Or.inr ⟨w, List.mem_cons_self _ _, h⟩
    · rcases List.mem_cons.1 h with h' | h'
      · exact Or.inl h'
      · rcases unwordsL_chars (w' :: ws) c h' with h'' | h''
        · exact Or.inl h''
        · obtain ⟨u, hu, hcu⟩ := h''
          exact Or.inr ⟨u, List.mem_cons_of_mem _ hu, hcu⟩

theorem rrws_of_nows : ∀ (w : List Char), (∀ c ∈ w, isWs c = false) → rrws w = w
  | [] => fun _ => rfl
  | [a] => by intro h; simp [rrws, h a (List.mem_cons_self _ _)]
  | a :: b :: t => by
    intro h
    have ha : isWs a = false := h a (List.mem_cons_self _ _)
    have hrest : ∀ c ∈ b :: t, isWs c = false := fun c hc => h c (List.mem_cons_of_mem _ hc)
    simp only [rrws, ha, Bool.false_and, Bool.false_eq_true, if_false]
    rw [rrws_of_nows (b :: t) hrest]

theorem rrws_append_sep :
    ∀ (w : List Char) (zh : Char) (zt : List Char),
      (∀ c ∈ w, isWs c = false) → isWs zh = false →
      rrws (w ++ ' ' :: zh :: zt) = w ++ ' ' :: rrws (zh :: zt)
  | [], zh, zt => by
    intro _ hzh
    simp only [List.nil_append]
    simp only [rrws, hzh, Bool.and_false, Bool.false_eq_true, if_false]
    simp [isWs]
  | a :: w', zh, zt => by
    intro hw hzh
    have ha : isWs a = false := hw a (List.mem_cons_self _ _)
    have hw' : ∀ c ∈ w', isWs c = false := fun c hc => hw c (List.mem_cons_of_mem _ hc)
    have ih := rrws_append_sep w' zh zt hw' hzh
    cases w' with
    | nil =>
      simp only [List.nil_append] at ih
      simp only [List.cons_append, List.nil_append]
      simp only [rrws, ha, Bool.false_and, Bool.false_eq_true, if_false]
      exact congrArg (a :: ·) ih
    | cons b w'' =>
      simp only [List.cons_append]
      simp only [rrws, ha, Bool.false_and, Bool.false_eq_true, if_false]
      simp only [List.cons_append] at ih
      rw [ih]

theorem rrws_unwordsL :
    ∀ (W : List (List Char)),
      (∀ w ∈ W, w ≠ [] ∧ ∀ c ∈ w, isWs c = false) →
      rrws (unwordsL W) = unwordsL W
  | [] => fun _ => rfl
  | [w] => by
    intro h
    exact rrws_of_nows w (h w (List.mem_cons_self _ _)).2
  | w :: w' :: ws => by
    intro h
    have hw := h w (List.mem_cons_self _ _)
    have hw' := h w' (List.mem_cons_of_mem _ (List.mem_cons_self _ _))
    have hrest : ∀ u ∈ w' :: ws, u ≠ [] ∧ ∀ c ∈ u, isWs c = false :=
      fun u hu => h u (List.mem_cons_of_mem _ hu)
    show rrws (w ++ ' ' :: unwordsL (w' :: ws)) = w ++ ' ' :: unwordsL (w' :: ws)
    obtain ⟨zh, zt, hz⟩ : ∃ zh zt, unwordsL (w' :: ws) = zh :: zt := by
      cases ws with
      | nil =>
        cases w' with
        | nil => exact absurd rfl hw'.1
        | cons c cs => exact ⟨c, cs, rfl⟩
      | cons u us =>
        cases w' with
        | nil => exact absurd rfl hw'.1
        | cons c cs => exact ⟨c, cs ++ ' ' :: unwordsL (u :: us), rfl⟩
    have hzh : isWs zh = false := by
      cases w' with
      | nil => exact absurd rfl hw'.1
      | cons c cs =>
        have hceq : c = zh := by
          cases ws with
          | nil => simpa [unwordsL] using congrArg (·.head?) hz
          | cons u us => simpa [unwordsL] using congrArg (·.head?) hz
        rw [← hceq]
        exact hw'.2 c (List.mem_cons_self _ _)
    rw [hz, rrws_append_sep w zh zt hw.2 hzh, ← hz,
      rrws_unwordsL (w' :: ws) hrest]

theorem wordsBy_unwordsL :
    ∀ (W : List (List Char)),
      (∀ w ∈ W, w ≠ [] ∧ ∀ c ∈ w, isWs c = false) →
      wordsBy isWs (unwordsL W) = W
  | [] => fun _ => rfl
  | [w] => by
    intro h
    have hw := h w (List.mem_cons_self _ _)
    show wordsBy isWs w = [w]
    unfold wordsBy
    rw [List.splitOnP_eq_single _ _ (fun c hc => by simp [hw.2 c hc])]
    simp [List.isEmpty_iff, hw.1]
  | w :: w' :: ws => by
    intro h
    have hw := h w (List.mem_cons_self _ _)
    have hrest : ∀ u ∈ w' :: ws, u ≠ [] ∧ ∀ c ∈ u, isWs c = false :=
      fun u hu => h u (List.mem_cons_of_mem _ hu)
    show wordsBy isWs (w ++ ' ' :: unwordsL (w' :: ws)) = w :: w' :: ws
    unfold wordsBy
    rw [List.splitOnP_first _ _ (fun c hc => by simp [hw.2 c hc]) ' ' (by simp [isWs])]
    have hr := wordsBy_unwordsL (w' :: ws) hrest
    unfold wordsBy at hr
    simp only [List.filter_cons, List.isEmpty_iff]
    rw [hr]
    simp [List.isEmpty_iff, hw.1]

theorem map_normChar_eq_self {l : List Char} (h : ∀ c ∈ l, normChar c = c) :
    l.map normChar = l := by
  induction l with
  | nil => rfl
  | cons a t ih =>
    simp only [List.map_cons, h a (List.mem_cons_self _ _),
      ih fun c hc => h c (List.mem_cons_of_mem _ hc)]

theorem normalizeL_eq (l : List Char) :
    normalizeL l = simplifiedL (rrws (l.map normChar)) := by
  unfold normalizeL
  rw [List.map_map, List.map_map]
  rfl

theorem normalizeL_idem (l : List Char) : normalizeL (normalizeL l) = normalizeL l := by
  have hwords : ∀ w ∈ wordsBy isWs (rrws (l.map normChar)),
      w ≠ [] ∧ ∀ c ∈ w, isWs c = false :=
    fun w hw => ⟨(mem_wordsBy w hw).1, fun c hc => ((mem_wordsBy w hw).2 c hc).1⟩
  have hfix : ∀ c ∈ unwordsL (wordsBy isWs (rrws (l.map normChar))), normChar c = c := by
    intro c hc
    rcases unwordsL_chars _ c hc with h | ⟨w, hwW, hcw⟩
    · rw [h]; rfl
    · have hcr : c ∈ rrws (l.map normChar) := ((mem_wordsBy w hwW).2 c hcw).2
      rcases rrws_chars _ c hcr with h | h
      · rw [h]; rfl
      · obtain ⟨a, _, rfl⟩ := List.mem_map.1 h
        exact normChar_normChar a
  have hy : normalizeL l = unwordsL (wordsBy isWs (rrws (l.map normChar))) := by
    rw [normalizeL_eq]; rfl
  rw [hy, normalizeL_eq, map_normChar_eq_self hfix, rrws_unwordsL _ hwords]
  show unwordsL (wordsBy isWs (unwordsL (wordsBy isWs (rrws (l.map normChar))))) = _
  rw [wordsBy_unwordsL _ hwords]

/-- C5: `normalize` is a pure function and idempotent —
`normalize (normalize x) = normalize x` for every string — and it is case-
and separator-insensitive, so `normalize "My-Song_Title"` equals
`normalize "my song title"`. -/
theorem normalize_idempotent :
    (∀ s : String, normalize (normalize s) = normalize s) ∧
      normalize "My-Song_Title" = normalize "my song title" :=
  ⟨fun s => congrArg String.mk (normalizeL_idem s.data), rfl⟩

/-! ## Search filter (C1) -/

/-- C1 counterexample: the code's `filterAcceptsRow` returns `true` for a
row whose search key is empty even though the single token `"song"` is not
a substring of the empty key (`if (key.isEmpty()) return true;`,
MainWindow.cpp:62), so "accepts exactly when searchKey contains every
token" fails as stated. -/
theorem filter_empty_searchKey_counterexample :
    setQueryTokens "song" = ["song"] ∧
      filterAcceptsRow (setQueryTokens "song") "" = true ∧
      ¬ ("song".data <:+: "".data) :=
  ⟨by decide, by decide, by decide⟩

/-- C1 (amended): after `setQuery(text)` the tokens are `normalize(text)`
split on spaces excluding empty tokens, and `accepts` is true exactly when
the token list is empty, or the row's search key is empty, or the search
key contains every token as a substring; for query `"song title"` the key
`"my song title.mp3"` is accepted and `"my other track.mp3"` rejected, and
the empty query accepts every track. -/
theorem filter_accepts_spec :
    (∀ (text searchKey : String),
        filterAcceptsRow (setQueryTokens text) searchKey = true ↔
          (setQueryTokens text = [] ∨ searchKey = "" ∨
            ∀ t ∈ setQueryTokens text, t.data <:+: searchKey.data)) ∧
      filterAcceptsRow (setQueryTokens "song title") "my song title.mp3" = true ∧
      filterAcceptsRow (setQueryTokens "song title") "my other track.mp3" = false ∧
      (∀ searchKey : String, filterAcceptsRow (setQueryTokens "") searchKey = true) := by
  refine ⟨?_, by decide, by decide, fun searchKey => rfl⟩
  intro text searchKey
  unfold filterAcceptsRow
  split_ifs with h1 h2
  · simp [h1]
  · simp [h2]
  · simp [h1, h2, List.all_eq_true]

/-! ## Track catalog (C2) -/

theorem mkTrack_filePath (p : String) : (mkTrack p).filePath = p := rfl

theorem catInv_empty : catInv emptyCatalog :=
  ⟨List.nodup_nil, by simp [emptyCatalog, catInv]⟩

theorem catInv_add (st : Catalog) (p : String) (h : catInv st) : catInv (addTrack st p).1 := by
  unfold addTrack
  by_cases hp : p ∈ st.trackSet
  · rw [if_pos hp]; exact h
  · rw [if_neg hp]
    constructor
    · simp only [List.map_append, List.map_cons, List.map_nil]
      rw [List.nodup_append]
      refine ⟨h.1, List.nodup_singleton p, ?_⟩
      intro a ha hb
      rw [List.mem_singleton, mkTrack_filePath] at hb
      subst hb
      exact hp ((h.2 a).2 ha)
    · intro q
      simp only [List.map_append, List.map_cons, List.map_nil, List.mem_cons,
        List.mem_append, mkTrack_filePath, List.not_mem_nil, or_false]
      rw [h.2 q]
      tauto

theorem catReach_inv : ∀ st : Catalog, CatReach st → catInv st := by
  intro st h
  induction h with
  | init => exact catInv_empty
  | add st p _ ih => exact catInv_add st p ih

/-- C2: `addTrack` is a no-op returning `false` when the path is already
present; otherwise it appends exactly one new `Track` whose display title
is the file name without extension and whose search key is
`normalize(title + " " + fileName + " " + directory)`, and returns `true`.
Adding the same fresh path twice grows the count by exactly one, and every
reachable catalog state has pairwise distinct track paths. -/
theorem catalog_add_dedup :
    ∀ (st : Catalog) (p : String),
      (p ∈ st.trackSet → addTrack st p = (st, false)) ∧
      (p ∉ st.trackSet →
        addTrack st p =
          ({ trackSet := p :: st.trackSet, tracks := st.tracks ++ [mkTrack p] }, true) ∧
        (mkTrack p).displayTitle = completeBaseName p ∧
        (mkTrack p).searchKey =
          normalize (completeBaseName p ++ " " ++ fileName p ++ " " ++ absolutePath p)) ∧
      (p ∉ st.trackSet →
        catalogCount (addTrack (addTrack st p).1 p).1 = catalogCount st + 1) ∧
      (CatReach st → (st.tracks.map Track.filePath).Nodup) := by
  intro st p
  refine ⟨fun hp => by simp [addTrack, hp],
    fun hp => ⟨by simp [addTrack, hp], rfl, rfl⟩,
    fun hp => ?_,
    fun hr => (catReach_inv st hr).1⟩
  simp [addTrack, hp, catalogCount]

/-! ## Navigation: next (C3, C9) -/

theorem nextIndex_seq (cur total : Int) (r : Nat) (draw : Int) :
    nextIndex cur total false r draw =
      if total = 0 then none
      else if total ≤ cur + 1 then (if r = 1 then some 0 else none)
      else if cur + 1 = -1 then none else some (cur + 1) := by
  unfold nextIndex
  by_cases ht : total = 0
  · simp [ht]
  · by_cases hle : total ≤ cur + 1
    · by_cases hr : r = 1 <;> simp [ht, hle, hr]
    · by_cases hm : cur + 1 = -1
      · have h2 : ¬ total ≤ -1 := hm ▸ hle
        simp [ht, hle, hm, h2]
      · simp [ht, hle, hm]

theorem nextIndex_shuffle (cur total : Int) (r : Nat) (draw : Int) :
    nextIndex cur total true r draw =
      if total = 0 then none
      else if total ≤ draw then (if r = 1 then some 0 else none)
      else if draw = -1 then none else some draw := by
  unfold nextIndex
  by_cases ht : total = 0
  · simp [ht]
  · by_cases hle : total ≤ draw
    · by_cases hr : r = 1 <;> simp [ht, hle, hr]
    · by_cases hm : draw = -1
      · have h2 : ¬ total ≤ -1 := hm ▸ hle
        simp [ht, hle, hm, h2]
      · simp [ht, hle, hm]

/-- C3: with shuffle disabled, `next` returns `currentIndex + 1`; when that
index reaches `total` it wraps to `0` under repeat-All (code 1) and yields
no next track under repeat-Off (code 0); an empty visible list makes
`playNext` a no-op returning no track.  Concretely, 3 tracks and
`currentIndex = 2` give `0` under All and none under Off. -/
theorem nav_next_sequential :
    ∀ (cur total : Int) (repeatMode : Nat) (draw : Int),
      (total = 0 → nextIndex cur total false repeatMode draw = none) ∧
      (0 ≤ cur → cur + 1 < total → nextIndex cur total false repeatMode draw = some (cur + 1)) ∧
      (0 < total → total ≤ cur + 1 → repeatMode = 1 →
        nextIndex cur total false repeatMode draw = some 0) ∧
      (total ≤ cur + 1 → repeatMode = 0 → nextIndex cur total false repeatMode draw = none) ∧
      (∀ st : PlayerSt, st.visible = [] → playNextS st draw = (st, none)) ∧
      nextIndex 2 3 false 1 draw = some 0 ∧
      nextIndex 2 3 false 0 draw = none := by
  intro cur total repeatMode draw
  refine ⟨?_, ?_, ?_, ?_, ?_, ?_, ?_⟩
  · intro h; rw [nextIndex_seq]; simp [h]
  · intro h0 h1
    rw [nextIndex_seq, if_neg (by omega : ¬ total = 0),
      if_neg (by omega : ¬ total ≤ cur + 1), if_neg (by omega : ¬ cur + 1 = -1)]
  · intro h0 h1 h2
    rw [nextIndex_seq, if_neg (by omega : ¬ total = 0), if_pos h1, if_pos h2]
  · intro h1 h2
    by_cases ht : total = 0
    · rw [nextIndex_seq]; simp [ht]
    · rw [nextIndex_seq, if_neg ht, if_pos h1]
      simp [h2]
  · intro st hv
    simp [playNextS, hv, nextIndex]
  · rw [nextIndex_seq]; norm_num
  · rw [nextIndex_seq]; norm_num

/-- C9: with shuffle enabled and a non-empty visible list, `next` returns
the drawn index — which `QRandomGenerator::bounded(total)` keeps in
`[0, total)` — for every such draw and every repeat mode, so it never
returns none: at the list end with repeat-Off, playback re-randomizes
instead of stopping. -/
theorem nav_next_shuffle :
    ∀ (cur total draw : Int) (repeatMode : Nat),
      0 < total → 0 ≤ draw → draw < total →
      nextIndex cur total true repeatMode draw = some draw ∧
        nextIndex cur total true repeatMode draw ≠ none ∧ 0 ≤ draw ∧ draw < total := by
  intro cur total draw repeatMode h0 h1 h2
  have heq : nextIndex cur total true repeatMode draw = some draw := by
    rw [nextIndex_shuffle, if_neg (by omega : ¬ total = 0),
      if_neg (by omega : ¬ total ≤ draw), if_neg (by omega : ¬ draw = -1)]
  exact ⟨heq, by simp [heq], h1, h2⟩

theorem nav_next_shuffle_witness :
    nextIndex 2 3 true 0 1 = some 1 ∧ nextIndex 2 3 true 0 1 ≠ none ∧
      (0 : Int) ≤ 1 ∧ (1 : Int) < 3 :=
  nav_next_shuffle 2 3 1 0 (by decide) (by decide) (by decide)

/-! ## Navigation: previous (C4) -/

theorem getLastD_mem_of_ne_nil {α : Type} {l : List α} (h : l ≠ []) (d : α) :
    l.getLastD d ∈ l := by
  rw [List.getLastD_eq_getLast?]
  have hm := List.getLast_mem_getLast? h
  rw [Option.mem_def] at hm
  rw [hm, Option.getD_some]
  exact List.getLast_mem h

/-- C4: with at least two history entries, `playPrevious` removes the most
recent entry and plays the new last entry without re-recording it (history
`[A, B, C]` becomes `[A, B]` with `B` playing; history entries are nonempty
paths since `playTrack` records no empty path); with fewer than two entries
it falls back to `currentIndex - 1`, wrapping to `total - 1` under
repeat-All and doing nothing otherwise. -/
theorem nav_previous :
    ∀ st : PlayerSt,
      (2 ≤ st.playHistory.length →
        (playPreviousS st).1.playHistory = st.playHistory.dropLast ∧
        ("" ∉ st.playHistory →
          (playPreviousS st).2 = some (st.playHistory.dropLast.getLastD "") ∧
          (playPreviousS st).1.currentFilePath = st.playHistory.dropLast.getLastD "")) ∧
      (st.playHistory.length < 2 →
        (0 ≤ st.currentRow - 1 → playPreviousS st = playIndexS st (st.currentRow - 1)) ∧
        (st.currentRow - 1 < 0 → st.repeatMode = 1 →
          playPreviousS st = playIndexS st ((st.visible.length : Int) - 1)) ∧
        (st.currentRow - 1 < 0 → st.repeatMode ≠ 1 → playPreviousS st = (st, none))) := by
  intro st
  constructor
  · intro hlen
    have hbranch : playPreviousS st =
        playTrackS { st with playHistory := st.playHistory.dropLast }
          (st.playHistory.dropLast.getLastD "") false := by
      unfold playPreviousS
      rw [if_pos hlen]
    constructor
    · rw [hbranch]
      unfold playTrackS
      split <;> simp
    · intro hne
      have hdrop_ne : st.playHistory.dropLast ≠ [] := by
        have h1 : st.playHistory.dropLast.length = st.playHistory.length - 1 :=
          List.length_dropLast _
        intro h0
        rw [h0] at h1
        simp at h1
        omega
      have hfp : st.playHistory.dropLast.getLastD "" ≠ "" := by
        intro h0
        exact hne (List.dropLast_subset _ (h0 ▸ getLastD_mem_of_ne_nil hdrop_ne ""))
      simp only [List.getLastD_eq_getLast?] at hfp
      rw [hbranch]
      constructor
      · simp [playTrackS, hfp]
      · simp [playTrackS, hfp]
  · intro hlen
    have hbranch : ¬ 2 ≤ st.playHistory.length := by omega
    refine ⟨?_, ?_, ?_⟩
    · intro h0
      unfold playPreviousS
      rw [if_neg hbranch]
      simp only [if_neg (by omega : ¬ st.currentRow - 1 < 0)]
      rw [if_pos (by omega : st.currentRow - 1 ≠ -1)]
    · intro h0 h1
      unfold playPreviousS
      rw [if_neg hbranch]
      simp only [if_pos h0, h1, if_true, ite_true]
      by_cases hv : (st.visible.length : Int) - 1 = -1
      · rw [if_neg (by omega : ¬ (st.visible.length : Int) - 1 ≠ -1)]
        unfold playIndexS
        rw [if_neg (by omega : ¬ (0 ≤ (st.visible.length : Int) - 1 ∧
          (st.visible.length : Int) - 1 < (st.visible.length : Int)))]
      · rw [if_pos (by omega : (st.visible.length : Int) - 1 ≠ -1)]
    · intro h0 h1
      unfold playPreviousS
      rw [if_neg hbranch]
      simp only [if_pos h0, if_neg h1]
      rw [if_neg (by omega : ¬ (-1 : Int) ≠ -1)]

/-! ## End of media (C8) -/

/-- C8: on end-of-media with repeat mode One (code 2), the controller
replays `currentFilePath` without touching the history — play history and
current path are exactly what they were — and for every other repeat mode
the handler is exactly `playNext`. -/
theorem media_end_repeat_one :
    ∀ (st : PlayerSt) (draw : Int),
      (st.repeatMode = 2 →
        (handleMediaStatusS st true draw).1.playHistory = st.playHistory ∧
        (handleMediaStatusS st true draw).1.currentFilePath = st.currentFilePath ∧
        (st.currentFilePath ≠ "" →
          (handleMediaStatusS st true draw).2 = some st.currentFilePath)) ∧
      (st.repeatMode ≠ 2 → handleMediaStatusS st true draw = playNextS st draw) := by
  intro st draw
  constructor
  · intro h2
    simp only [handleMediaStatusS, if_pos rfl, h2, if_true]
    by_cases hfp : st.currentFilePath = ""
    · simp [playTrackS, hfp]
    · simp [playTrackS, hfp]
  · intro h2
    simp [handleMediaStatusS, h2]

/-! ## Play/pause precedence (C6) -/

/-- C6 counterexample: in a state with nothing playing, no source loaded,
no selection, one catalog row but an empty filtered view, the code's
`playPause` does nothing (it guards on `filter_->rowCount() > 0`,
MainWindow.cpp:347), while the spec's chain — whose last guard reads the
catalog — would play the first visible track, which does not exist. -/
theorem playPause_visible_counterexample :
    playPauseAction ⟨false, false, false, 0, 1⟩ = PPAction.noAction ∧
      playPauseActionSpec ⟨false, false, false, 0, 1⟩ = PPAction.playFirstVisible ∧
      (⟨false, false, false, 0, 1⟩ : UiSnapshot).visibleCount = 0 ∧
      0 < (⟨false, false, false, 0, 1⟩ : UiSnapshot).catalogSize :=
  ⟨rfl, rfl, rfl, by decide⟩

/-- C6 (amended): `playPause` follows the exact precedence order — Playing
pauses; else a loaded source resumes; else a valid selection plays it; else
a non-empty visible (filtered) list plays its first track; else nothing
happens. -/
theorem playPause_precedence :
    ∀ u : UiSnapshot,
      (u.playing = true → playPauseAction u = .pauseCurrent) ∧
      (u.playing = false → u.sourceSet = true → playPauseAction u = .resumeCurrent) ∧
      (u.playing = false → u.sourceSet = false → u.selectionValid = true →
        playPauseAction u = .playSelection) ∧
      (u.playing = false → u.sourceSet = false → u.selectionValid = false →
        0 < u.visibleCount → playPauseAction u = .playFirstVisible) ∧
      (u.playing = false → u.sourceSet = false → u.selectionValid = false →
        u.visibleCount = 0 → playPauseAction u = .noAction) := by
  intro u
  refine ⟨?_, ?_, ?_, ?_, ?_⟩
  · intro h1; simp [playPauseAction, h1]
  · intro h1 h2; simp [playPauseAction, h1, h2]
  · intro h1 h2 h3; simp [playPauseAction, h1, h2, h3]
  · intro h1 h2 h3 h4; simp [playPauseAction, h1, h2, h3, h4]
  · intro h1 h2 h3 h4; simp [playPauseAction, h1, h2, h3, h4]

/-! ## Folder scanner (C7) -/

theorem afterLastC_eq_none {sep : Char} :
    ∀ l : List Char, afterLastC sep l = none ↔ sep ∉ l
  | [] => by simp [afterLastC]
  | c :: rest => by
    simp only [afterLastC]
    cases h : afterLastC sep rest with
    | some e =>
      have : sep ∈ rest := by
        by_contra hn
        rw [(afterLastC_eq_none rest).2 hn] at h
        cases h
      simp [this]
    | none =>
      have hrest : sep ∉ rest := (afterLastC_eq_none rest).1 h
      by_cases hc : c == sep
      · have : c = sep := by simpa using hc
        simp [hc, this]
      · have hne : ¬ c = sep := by simpa using hc
        simp [hc, hrest, Ne.symm hne]

theorem suffix_iff_afterLastC {sep : Char} {e : List Char} (he : sep ∉ e) :
    ∀ l : List Char, ((sep :: e) <:+ l) ↔ afterLastC sep l = some e
  | [] => by
    simp [List.suffix_nil, afterLastC]
  | c :: rest => by
    rw [List.suffix_cons_iff]
    constructor
    · rintro (h | h)
      · cases h
        have h0 : afterLastC sep e = none := (afterLastC_eq_none e).2 he
        simp [afterLastC, h0]
      · have := (suffix_iff_afterLastC he rest).1 h
        simp [afterLastC, this]
    · intro h
      simp only [afterLastC] at h
      cases hr : afterLastC sep rest with
      | some e' =>
        rw [hr] at h
        have he' : e' = e := by injection h
        subst he'
        exact Or.inr ((suffix_iff_afterLastC he rest).2 hr)
      | none =>
        rw [hr] at h
        by_cases hc : c == sep
        · rw [if_pos hc] at h
          have h1 : rest = e := by injection h
          have h2 : c = sep := by simpa using hc
          exact Or.inl (by rw [h2, h1])
        · rw [if_neg hc] at h
          cases h

theorem nameMatchesFilters_eq_extIsAllowed :
    ∀ name : List Char, nameMatchesFilters name = extIsAllowed name := by
  intro name
  have e1 : ("*.mp3".data.drop 1).map Char.toLower = '.' :: "mp3".data := by decide
  have e2 : ("*.flac".data.drop 1).map Char.toLower = '.' :: "flac".data := by decide
  have e3 : ("*.wav".data.drop 1).map Char.toLower = '.' :: "wav".data := by decide
  have e4 : ("*.ogg".data.drop 1).map Char.toLower = '.' :: "ogg".data := by decide
  have e5 : ("*.m4a".data.drop 1).map Char.toLower = '.' :: "m4a".data := by decide
  have e6 : ("*.aac".data.drop 1).map Char.toLower = '.' :: "aac".data := by decide
  have h1 := @suffix_iff_afterLastC '.' ("mp3".data) (by decide)
    (name.map Char.toLower)
  have h2 := @suffix_iff_afterLastC '.' ("flac".data) (by decide)
    (name.map Char.toLower)
  have h3 := @suffix_iff_afterLastC '.' ("wav".data) (by decide)
    (name.map Char.toLower)
  have h4 := @suffix_iff_afterLastC '.' ("ogg".data) (by decide)
    (name.map Char.toLower)
  have h5 := @suffix_iff_afterLastC '.' ("m4a".data) (by decide)
    (name.map Char.toLower)
  have h6 := @suffix_iff_afterLastC '.' ("aac".data) (by decide)
    (name.map Char.toLower)
  rw [Bool.eq_iff_iff]
  unfold nameMatchesFilters extIsAllowed
  simp only [kFilters, List.any_cons, List.any_nil, Bool.or_eq_true, Bool.or_false,
    decide_eq_true_eq, e1, e2, e3, e4, e5, e6]
  rw [h1, h2, h3, h4, h5, h6]
  cases hr : afterLastC '.' (name.map Char.toLower) with
  | none => simp [hr]
  | some e => simp [hr, allowedExts]

/-- C7: `scanFolder` feeds `addTrack` exactly the listed regular files
whose extension — compared case-insensitively — is in the allow-list mp3,
flac, wav, ogg, m4a, aac: the iterator's wildcard filtering coincides with
the extension test, and scanning a directory holding `song.mp3`, `SONG.MP3`
and `notes.txt` yields catalog count 2. -/
theorem scan_allowlist :
    (∀ name : List Char, nameMatchesFilters name = extIsAllowed name) ∧
      (∀ (listing : List String) (st : Catalog),
        scanFolder listing st =
          (listing.filter fun p => extIsAllowed (fileNameL p.data)).foldl
            (fun s q => (addTrack s q).1) st) ∧
      catalogCount
        (scanFolder ["/music/song.mp3", "/music/SONG.MP3", "/music/notes.txt"]
          emptyCatalog) = 2 := by
  refine ⟨nameMatchesFilters_eq_extIsAllowed, ?_, by decide⟩
  intro listing st
  unfold scanFolder
  rw [List.filter_congr fun p _ => nameMatchesFilters_eq_extIsAllowed (fileNameL p.data)]

/-! ## Play history invariant (C10) -/

theorem chain_ne_playTrackS (st : PlayerSt) (fp : String) (rec : Bool)
    (h : st.playHistory.Chain' (· ≠ ·)) :
    (playTrackS st fp rec).1.playHistory.Chain' (· ≠ ·) := by
  unfold playTrackS
  by_cases hfp : fp = ""
  · rw [if_pos hfp]; exact h
  · rw [if_neg hfp]
    simp only
    by_cases hc : rec = true ∧ (st.playHistory = [] ∨ st.playHistory.getLast? ≠ some fp)
    · rw [if_pos hc]
      refine List.Chain'.append h (List.chain'_singleton fp) ?_
      intro x hx y hy
      have hyfp : fp = y := by simpa using hy
      subst hyfp
      rcases hc.2 with hnil | hne
      · rw [hnil] at hx; simp at hx
      · intro hEq
        rw [Option.mem_def] at hx
        exact hne (hEq ▸ hx)
    · rw [if_neg hc]; exact h

theorem chain_ne_playIndexS (st : PlayerSt) (row : Int)
    (h : st.playHistory.Chain' (· ≠ ·)) :
    (playIndexS st row).1.playHistory.Chain' (· ≠ ·) := by
  unfold playIndexS
  split_ifs with hv
  · exact chain_ne_playTrackS st _ true h
  · exact h

theorem chain_ne_playNextS (st : PlayerSt) (draw : Int)
    (h : st.playHistory.Chain' (· ≠ ·)) :
    (playNextS st draw).1.playHistory.Chain' (· ≠ ·) := by
  unfold playNextS
  cases nextIndex st.currentRow (st.visible.length : Int) st.shuffleEnabled
      st.repeatMode draw with
  | some r => exact chain_ne_playIndexS st r h
  | none => exact h

theorem chain_ne_playPreviousS (st : PlayerSt)
    (h : st.playHistory.Chain' (· ≠ ·)) :
    (playPreviousS st).1.playHistory.Chain' (· ≠ ·) := by
  unfold playPreviousS
  by_cases hlen : 2 ≤ st.playHistory.length
  · rw [if_pos hlen]
    exact chain_ne_playTrackS { st with playHistory := st.playHistory.dropLast } _ false
      h.init
  · rw [if_neg hlen]
    simp only
    split_ifs with h3 h4 h5
    all_goals first | exact chain_ne_playIndexS st _ h | exact h

theorem chain_ne_handleMediaStatusS (st : PlayerSt) (endOfMedia : Bool) (draw : Int)
    (h : st.playHistory.Chain' (· ≠ ·)) :
    (handleMediaStatusS st endOfMedia draw).1.playHistory.Chain' (· ≠ ·) := by
  unfold handleMediaStatusS
  split_ifs with h1 h2
  · exact chain_ne_playTrackS st _ false h
  · exact chain_ne_playNextS st draw h
  · exact h

/-- C10: in every reachable controller state the play history has no two
equal consecutive entries — `playTrack` appends a path only when it differs
from the last entry, `playPrevious` only drops the last entry (replaying
without recording), and no other operation appends. -/
theorem play_history_no_consecutive_dup :
    ∀ st : PlayerSt, PReach st → st.playHistory.Chain' (· ≠ ·) := by
  intro st h
  induction h with
  | init => exact List.chain'_nil
  | step _ hs ih =>
    cases hs with
    | playIndex row => exact chain_ne_playIndexS _ row ih
    | playNext draw => exact chain_ne_playNextS _ draw ih
    | playPrevious => exact chain_ne_playPreviousS _ ih
    | mediaStatus endOfMedia draw => exact chain_ne_handleMediaStatusS _ endOfMedia draw ih
    | passive => rename_i hp; rw [hp]; exact ih

theorem play_history_no_consecutive_dup_witness :
    initPlayerSt.playHistory.Chain' (· ≠ ·) :=
  play_history_no_consecutive_dup initPlayerSt PReach.init

end MusicPlayer
